import Mathlib

/-!
Verification development for the ephys_compression_tests web-ui time-series
pipeline.  The definitions below are shallow embeddings of the TypeScript
sources:

* `TimeseriesClient` — src/web-ui/src/hooks/TimeseriesDataClient.ts
  (pure data path: `getChunkIndices`, `fetchChunk`, `fetchRange`), with the
  source blob modelled as a total function from flat index to element value.
* `ClientNetState` — the same file's stateful fetch protocol
  (`cache`, `inProgressFetches`), modelled as a step relation over events.
* `WorkerState` — src/web-ui/src/components/dataset/LossyAlgorithmSelector.tsx
  (`throttleRender` and the worker `onmessage` handler).
* `TimeseriesViewState` / `timeseriesViewReducer` —
  src/web-ui/src/components/dataset/timeseriesViewReducer.ts.
* pan/zoom handlers — src/web-ui/src/components/dataset/ComparisonModeSelector.tsx.

Machine numbers are idealised: sample values as `Int`, pixel and data-space
coordinates as `ℚ`, times in milliseconds as `Nat`.
-/

namespace EphysCompression

/-- Embedding of `TimeseriesDataClient` (TimeseriesDataClient.ts).  The remote
binary blob is modelled as a total function from flat element index
(`timepoint * numChannels + channel`) to the decoded numeric value; `shape` is
the number of timepoints, as parsed from the dataset JSON. -/
structure TimeseriesClient where
  blob : Nat → Int
  shape : Nat
  numChannels : Nat
  chunkSize : Nat

namespace TimeseriesClient

/-- `fetchChunk` data path (TimeseriesDataClient.ts lines 109-136): the chunk
covers timepoints `[chunkIndex*chunkSize, min ((chunkIndex+1)*chunkSize) shape)`
and the byte-range request returns the interleaved elements
`blob (start*numChannels) .. blob (end*numChannels - 1)`. -/
def fetchChunk (c : TimeseriesClient) (chunkIndex : Nat) : List Int :=
  let start := chunkIndex * c.chunkSize
  let stop := min (start + c.chunkSize) c.shape
  (List.range ((stop - start) * c.numChannels)).map
    (fun j => c.blob (start * c.numChannels + j))

/-- `getChunkIndices` (TimeseriesDataClient.ts lines 86-94): all chunk indices
from `floor(start/chunkSize)` to `floor(end/chunkSize)` inclusive. -/
def getChunkIndices (c : TimeseriesClient) (start stop : Nat) : List Nat :=
  let startChunk := start / c.chunkSize
  let endChunk := stop / c.chunkSize
  List.range' startChunk (endChunk + 1 - startChunk)

/-- One iteration of the copy loop of `fetchRange`
(TimeseriesDataClient.ts lines 169-180) for the pair
`(chunkIndices[i], chunks[i])`: the samples of `channel` contributed by this
chunk, in timepoint order. -/
def chunkContrib (c : TimeseriesClient) (start stop channel : Nat)
    (p : Nat × List Int) : List Int :=
  let chunk := p.2
  let chunkStart := p.1 * c.chunkSize
  let copyStart := start - chunkStart
  let copyEnd := min (chunk.length / c.numChannels) (stop - chunkStart)
  (List.range' copyStart (copyEnd - copyStart)).map
    (fun t => chunk.getD (t * c.numChannels + channel) 0)

/-- The body of `fetchRange` after all chunks have resolved
(TimeseriesDataClient.ts lines 162-182): a typed array of length
`end - start` is allocated (zero-initialised), then filled sequentially by the
copy loop; writes past the end of the array are silently dropped, exactly as
for a JavaScript typed array. -/
def fetchRangeCore (c : TimeseriesClient) (start stop channel : Nat)
    (pairs : List (Nat × List Int)) : List Int :=
  let stitched := pairs.flatMap (chunkContrib c start stop channel)
  stitched.take (stop - start) ++
    List.replicate ((stop - start) - stitched.length) 0

/-- `fetchRange` (TimeseriesDataClient.ts lines 148-183), with every chunk
fetch succeeding: gather the chunks for `getChunkIndices start stop`, then
stitch the requested channel out of the interleaved layout. -/
def fetchRange (c : TimeseriesClient) (start stop channel : Nat) : List Int :=
  fetchRangeCore c start stop channel
    ((c.getChunkIndices start stop).map (fun i => (i, c.fetchChunk i)))

/-- The requested channel's samples for timepoints in `[lo, hi)`, read
directly off the source blob at flat index `t * numChannels + channel`; the
reference value against which the stitched `fetchRange` output is compared. -/
def seg (c : TimeseriesClient) (channel lo hi : Nat) : List Int :=
  (List.range' lo (hi - lo)).map (fun t => c.blob (t * c.numChannels + channel))

/-- Left endpoint of the part of `[start, stop)` covered by chunks `< j`. -/
def segLo (c : TimeseriesClient) (start stop j : Nat) : Nat :=
  max start (min (j * c.chunkSize) stop)

theorem segLo_mono (c : TimeseriesClient) (start stop : Nat) {j j' : Nat}
    (h : j ≤ j') : segLo c start stop j ≤ segLo c start stop j' := by
  have := Nat.mul_le_mul_right c.chunkSize h
  unfold segLo
  omega

theorem getD_map_range (f : Nat → Int) (n j : Nat) (hj : j < n) :
    ((List.range n).map f).getD j 0 = f j := by
  simp [List.getD_eq_getElem?_getD, List.getElem?_range hj]

theorem seg_length (c : TimeseriesClient) (channel lo hi : Nat) :
    (seg c channel lo hi).length = hi - lo := by
  simp [seg]

theorem seg_append (c : TimeseriesClient) (channel lo mid hi : Nat)
    (h1 : lo ≤ mid) (h2 : mid ≤ hi) :
    seg c channel lo mid ++ seg c channel mid hi = seg c channel lo hi := by
  obtain ⟨m, rfl⟩ : ∃ m, mid = lo + m := ⟨mid - lo, by omega⟩
  obtain ⟨n, rfl⟩ : ∃ n, hi = lo + m + n := ⟨hi - (lo + m), by omega⟩
  unfold seg
  rw [← List.map_append]
  congr 1
  have e1 : lo + m - lo = m := by omega
  have e2 : lo + m + n - (lo + m) = n := by omega
  have e3 : lo + m + n - lo = n + m := by omega
  rw [e1, e2, e3, List.range'_append_1]

/-- The copy loop's contribution of a single resolved chunk is exactly the
blob segment for the timepoints of `[start, stop)` that fall inside that
chunk. -/
theorem chunkContrib_eq_seg (c : TimeseriesClient) (start stop channel i : Nat)
    (hnc : 0 < c.numChannels) (hch : channel < c.numChannels)
    (hi : i * c.chunkSize ≤ stop) (hstop : stop ≤ c.shape) :
    chunkContrib c start stop channel (i, c.fetchChunk i) =
      seg c channel (max start (i * c.chunkSize))
        (min ((i + 1) * c.chunkSize) stop) := by
  have hmul : (i + 1) * c.chunkSize = i * c.chunkSize + c.chunkSize := by ring
  set A := i * c.chunkSize with hA
  set S := min (A + c.chunkSize) c.shape with hS
  have hchunklen : (c.fetchChunk i).length = (S - A) * c.numChannels := by
    simp [TimeseriesClient.fetchChunk, hA, hS]
  have hdiv : (c.fetchChunk i).length / c.numChannels = S - A := by
    rw [hchunklen, Nat.mul_div_cancel _ hnc]
  have hcc : chunkContrib c start stop channel (i, c.fetchChunk i) =
      (List.range' (start - A)
          (min ((c.fetchChunk i).length / c.numChannels) (stop - A) - (start - A))).map
        (fun t => (c.fetchChunk i).getD (t * c.numChannels + channel) 0) := rfl
  rw [hcc, hdiv]
  have hcongr : (List.range' (start - A) (min (S - A) (stop - A) - (start - A))).map
        (fun t => (c.fetchChunk i).getD (t * c.numChannels + channel) 0) =
      (List.range' (start - A) (min (S - A) (stop - A) - (start - A))).map
        (fun t => c.blob ((A + t) * c.numChannels + channel)) := by
    apply List.map_congr_left
    intro t ht
    rw [List.mem_range'_1] at ht
    have ht2 : t < S - A := by omega
    have hbound : t * c.numChannels + channel < (S - A) * c.numChannels := by
      have h3 : (t + 1) * c.numChannels ≤ (S - A) * c.numChannels :=
        Nat.mul_le_mul_right _ (by omega)
      have h4 : (t + 1) * c.numChannels = t * c.numChannels + c.numChannels := by
        ring
      omega
    have hfc : c.fetchChunk i =
        (List.range ((S - A) * c.numChannels)).map
          (fun j => c.blob (A * c.numChannels + j)) := rfl
    rw [hfc, getD_map_range _ _ _ hbound]
    congr 1
    ring
  rw [hcongr]
  have hshift : (List.range' (start - A) (min (S - A) (stop - A) - (start - A))).map
        (fun t => c.blob ((A + t) * c.numChannels + channel)) =
      (List.range' (A + (start - A)) (min (S - A) (stop - A) - (start - A))).map
        (fun t => c.blob (t * c.numChannels + channel)) := by
    rw [← List.map_add_range']
    rw [List.map_map]
    rfl
  rw [hshift]
  unfold seg
  have e1 : A + (start - A) = max start A := by omega
  have e2 : min (S - A) (stop - A) - (start - A) =
      min ((i + 1) * c.chunkSize) stop - max start A := by
    rw [hmul, hS]
    omega
  rw [e1, e2]

/-- Telescoping: flat-mapping the copy loop over a contiguous run of chunk
indices yields one contiguous blob segment. -/
theorem stitch_eq_seg (c : TimeseriesClient) (start stop channel : Nat)
    (hnc : 0 < c.numChannels) (hch : channel < c.numChannels)
    (hstop : stop ≤ c.shape) (k : Nat) :
    ∀ sc : Nat, (∀ j, j < k → (sc + j) * c.chunkSize ≤ stop) →
      ((List.range' sc k).map (fun i => (i, c.fetchChunk i))).flatMap
          (chunkContrib c start stop channel) =
        seg c channel (segLo c start stop sc) (segLo c start stop (sc + k)) := by
  induction k with
  | zero =>
    intro sc _
    simp [seg]
  | succ k ih =>
    intro sc h
    rw [List.range'_succ]
    simp only [List.map_cons, List.flatMap_cons]
    have hsc : sc * c.chunkSize ≤ stop := by
      have := h 0 (Nat.succ_pos k)
      simpa using this
    rw [chunkContrib_eq_seg c start stop channel sc hnc hch hsc hstop]
    rw [ih (sc + 1) (fun j hj => by
      have := h (j + 1) (by omega)
      have e : sc + 1 + j = sc + (j + 1) := by omega
      rw [e]
      exact this)]
    have hmul : (sc + 1) * c.chunkSize = sc * c.chunkSize + c.chunkSize := by
      ring
    have hidx : sc + 1 + k = sc + (k + 1) := by omega
    rw [hidx]
    rcases le_or_lt start (min ((sc + 1) * c.chunkSize) stop) with hA | hB
    · have e1 : max start (sc * c.chunkSize) = segLo c start stop sc := by
        unfold segLo
        omega
      have e2 : min ((sc + 1) * c.chunkSize) stop =
          segLo c start stop (sc + 1) := by
        unfold segLo
        omega
      rw [e1, e2]
      exact seg_append c channel _ _ _
        (segLo_mono c start stop (by omega))
        (segLo_mono c start stop (by omega))
    · have e1 : max start (sc * c.chunkSize) = start := by
        omega
      have e2 : segLo c start stop sc = start := by
        unfold segLo
        omega
      have e3 : segLo c start stop (sc + 1) = start := by
        unfold segLo
        omega
      have e4 : min ((sc + 1) * c.chunkSize) stop - start = 0 := by
        omega
      rw [e1, e2, e3]
      unfold seg
      rw [e4]
      simp

/-- Closed form of `fetchRange` for an in-bounds request: the returned list is
exactly the blob segment for `[start, stop)` on `channel`. -/
theorem fetchRange_spec (c : TimeseriesClient) (start stop channel : Nat)
    (hcs : 0 < c.chunkSize) (hnc : 0 < c.numChannels)
    (hch : channel < c.numChannels) (h1 : start < stop) (h2 : stop ≤ c.shape) :
    c.fetchRange start stop channel = seg c channel start stop := by
  have hdd : start / c.chunkSize ≤ stop / c.chunkSize :=
    Nat.div_le_div_right (le_of_lt h1)
  have harg : ∀ j, j < stop / c.chunkSize + 1 - start / c.chunkSize →
      (start / c.chunkSize + j) * c.chunkSize ≤ stop := by
    intro j hj
    have h3 : start / c.chunkSize + j ≤ stop / c.chunkSize := by omega
    calc (start / c.chunkSize + j) * c.chunkSize
        ≤ (stop / c.chunkSize) * c.chunkSize := Nat.mul_le_mul_right _ h3
      _ ≤ stop := Nat.div_mul_le_self stop c.chunkSize
  unfold TimeseriesClient.fetchRange TimeseriesClient.fetchRangeCore
    TimeseriesClient.getChunkIndices
  simp only
  rw [stitch_eq_seg c start stop channel hnc hch h2 _ _ harg]
  have f1 : (start / c.chunkSize) * c.chunkSize ≤ start :=
    Nat.div_mul_le_self start c.chunkSize
  have e1 : segLo c start stop (start / c.chunkSize) = start := by
    unfold segLo
    omega
  have e2 : segLo c start stop
      (start / c.chunkSize + (stop / c.chunkSize + 1 - start / c.chunkSize)) =
      stop := by
    have hidx : start / c.chunkSize + (stop / c.chunkSize + 1 - start / c.chunkSize)
        = stop / c.chunkSize + 1 := by omega
    rw [hidx]
    unfold segLo
    have hmul : (stop / c.chunkSize + 1) * c.chunkSize =
        (stop / c.chunkSize) * c.chunkSize + c.chunkSize := by ring
    have hdm := Nat.div_add_mod stop c.chunkSize
    have hml : stop % c.chunkSize < c.chunkSize := Nat.mod_lt stop hcs
    have hcm : c.chunkSize * (stop / c.chunkSize) =
        (stop / c.chunkSize) * c.chunkSize := by ring
    omega
  rw [e1, e2]
  have hlen : (seg c channel start stop).length = stop - start := seg_length c channel start stop
  rw [← hlen, List.take_length, Nat.sub_self, List.replicate_zero, List.append_nil]

end TimeseriesClient

/-- A small concrete client used to exercise the theorems: 25 timepoints,
3 interleaved channels, chunk size 10, blob element `j` holding the value
`j`. -/
def sampleClient : TimeseriesClient :=
  { blob := fun j => (j : Int), shape := 25, numChannels := 3, chunkSize := 10 }

/-- C1: for every initialized client and valid call
`fetchRange(start, end, channel)` with `0 ≤ start < end ≤ shape` and
`0 ≤ channel < numChannels`, the returned sequence has exactly `end - start`
elements, and the element at position `t - start` equals the source blob's
element at flat index `t * numChannels + channel`, stitched across chunk
boundaries. -/
theorem fetchRange_returns_requested_samples (c : TimeseriesClient)
    (start stop channel : Nat) (hcs : 0 < c.chunkSize)
    (hnc : 0 < c.numChannels) (hch : channel < c.numChannels)
    (h1 : start < stop) (h2 : stop ≤ c.shape) :
    (c.fetchRange start stop channel).length = stop - start ∧
    ∀ t, start ≤ t → t < stop →
      (c.fetchRange start stop channel).getD (t - start) 0 =
        c.blob (t * c.numChannels + channel) := by
  rw [TimeseriesClient.fetchRange_spec c start stop channel hcs hnc hch h1 h2]
  constructor
  · exact TimeseriesClient.seg_length c channel start stop
  · intro t h3 h4
    unfold TimeseriesClient.seg
    rw [List.getD_eq_getElem?_getD, List.getElem?_map,
      List.getElem?_range' start 1 (show t - start < stop - start by omega)]
    have e : start + (t - start) = t := by omega
    simp [e]

/-- Witness for C1: on `sampleClient`, `fetchRange 5 22 1` has 17 elements
and position `16 - 5` holds blob element `16 * 3 + 1 = 49`, a range spanning
chunks 0, 1 and 2. -/
theorem fetchRange_returns_requested_samples_witness :
    (sampleClient.fetchRange 5 22 1).length = 17 ∧
    (sampleClient.fetchRange 5 22 1).getD (16 - 5) 0 = 49 := by
  have h := fetchRange_returns_requested_samples sampleClient 5 22 1
    (by decide) (by decide) (by decide) (by decide) (by decide)
  exact ⟨h.1, (h.2 16 (by decide) (by decide)).trans (by decide)⟩

/-- C9: when `end` is a positive multiple of the chunk size, the chunk index
set of `fetchRange(start, end, _)` includes the extra chunk
`end / chunkSize` beyond the chunks actually covering `[start, end)`; that
chunk contributes no samples, so the result still has `end - start`
elements. -/
theorem getChunkIndices_extra_chunk (c : TimeseriesClient)
    (start stop channel : Nat) (hcs : 0 < c.chunkSize)
    (hnc : 0 < c.numChannels) (hch : channel < c.numChannels)
    (h1 : start < stop) (h2 : stop ≤ c.shape)
    (hmul : stop % c.chunkSize = 0) :
    stop / c.chunkSize ∈ c.getChunkIndices start stop ∧
    (∀ t, start ≤ t → t < stop → t / c.chunkSize < stop / c.chunkSize) ∧
    TimeseriesClient.chunkContrib c start stop channel
      (stop / c.chunkSize, c.fetchChunk (stop / c.chunkSize)) = [] ∧
    (c.fetchRange start stop channel).length = stop - start := by
  have hdd : start / c.chunkSize ≤ stop / c.chunkSize :=
    Nat.div_le_div_right (le_of_lt h1)
  have hdc : (stop / c.chunkSize) * c.chunkSize = stop := by
    have := Nat.div_add_mod stop c.chunkSize
    have hcm : c.chunkSize * (stop / c.chunkSize) =
        (stop / c.chunkSize) * c.chunkSize := by ring
    omega
  refine ⟨?_, ?_, ?_, ?_⟩
  · unfold TimeseriesClient.getChunkIndices
    rw [List.mem_range'_1]
    omega
  · intro t h3 h4
    by_contra hcon
    push_neg at hcon
    have := Nat.mul_le_mul_right c.chunkSize hcon
    have h5 : t < (stop / c.chunkSize) * c.chunkSize := by omega
    have h6 : (stop / c.chunkSize) * c.chunkSize ≤ t :=
      (Nat.le_div_iff_mul_le hcs).mp hcon
    omega
  · have hcc : TimeseriesClient.chunkContrib c start stop channel
        (stop / c.chunkSize, c.fetchChunk (stop / c.chunkSize)) =
        (List.range' (start - (stop / c.chunkSize) * c.chunkSize)
            (min ((c.fetchChunk (stop / c.chunkSize)).length / c.numChannels)
              (stop - (stop / c.chunkSize) * c.chunkSize) -
              (start - (stop / c.chunkSize) * c.chunkSize))).map
          (fun t => (c.fetchChunk (stop / c.chunkSize)).getD
            (t * c.numChannels + channel) 0) := rfl
    rw [hcc]
    have e : min ((c.fetchChunk (stop / c.chunkSize)).length / c.numChannels)
        (stop - (stop / c.chunkSize) * c.chunkSize) -
        (start - (stop / c.chunkSize) * c.chunkSize) = 0 := by
      rw [hdc]
      omega
    rw [e]
    simp
  · rw [TimeseriesClient.fetchRange_spec c start stop channel hcs hnc hch h1 h2]
    exact TimeseriesClient.seg_length c channel start stop

/-- Witness for C9: on `sampleClient`, `fetchRange 0 20 0` with chunk size 10
includes the extra chunk 2 and still returns 20 samples. -/
theorem getChunkIndices_extra_chunk_witness :
    2 ∈ sampleClient.getChunkIndices 0 20 ∧
    TimeseriesClient.chunkContrib sampleClient 0 20 0
      (2, sampleClient.fetchChunk 2) = [] ∧
    (sampleClient.fetchRange 0 20 0).length = 20 := by
  have h := getChunkIndices_extra_chunk sampleClient 0 20 0
    (by decide) (by decide) (by decide) (by decide) (by decide) (by decide)
  exact ⟨h.1, h.2.2.1, h.2.2.2⟩

/-! ## Viewport state (timeseriesViewReducer.ts) -/

/-- `Range` (WorkerTypes.ts): a viewport interval over the timepoint axis. -/
structure Range where
  min : ℚ
  max : ℚ
deriving DecidableEq

/-- `TimeseriesViewState` (timeseriesViewReducer.ts lines 4-9). -/
structure TimeseriesViewState where
  selectedIndex : Int
  isDragging : Bool
  lastDragX : ℚ
  xRange : Range
deriving DecidableEq

/-- `initialState` (timeseriesViewReducer.ts lines 12-17). -/
def initialState : TimeseriesViewState :=
  { selectedIndex := -1, isDragging := false, lastDragX := 0,
    xRange := { min := 0, max := 999 } }

/-- `TimeseriesViewAction` (timeseriesViewReducer.ts lines 20-24).  The
`unrecognized` constructor stands for any runtime message whose `type` tag is
none of the four declared ones; it reaches the reducer's `default` branch. -/
inductive TimeseriesViewAction where
  | setSelectedIndex (index : Int)
  | setIsDragging (isDragging : Bool)
  | setLastDragX (x : ℚ)
  | setXRange (range : Range)
  | unrecognized

/-- `timeseriesViewReducer` (timeseriesViewReducer.ts lines 27-55). -/
def timeseriesViewReducer (state : TimeseriesViewState)
    (action : TimeseriesViewAction) : TimeseriesViewState :=
  match action with
  | .setSelectedIndex index => { state with selectedIndex := index }
  | .setIsDragging isDragging => { state with isDragging := isDragging }
  | .setLastDragX x => { state with lastDragX := x }
  | .setXRange range => { state with xRange := range }
  | .unrecognized => state

/-- C10: the viewport reducer is a pure transition function and each action
updates only its designated field, leaving the other three unchanged; an
unrecognized action returns the state unchanged. -/
theorem timeseriesViewReducer_frame :
    ∀ (s : TimeseriesViewState) (i : Int) (b : Bool) (x : ℚ) (r : Range),
      timeseriesViewReducer s (.setSelectedIndex i) =
        { s with selectedIndex := i } ∧
      timeseriesViewReducer s (.setIsDragging b) =
        { s with isDragging := b } ∧
      timeseriesViewReducer s (.setLastDragX x) =
        { s with lastDragX := x } ∧
      timeseriesViewReducer s (.setXRange r) =
        { s with xRange := r } ∧
      timeseriesViewReducer s .unrecognized = s :=
  fun _ _ _ _ _ => ⟨rfl, rfl, rfl, rfl, rfl⟩

/-! ## Pan and zoom (ComparisonModeSelector.tsx, TimeseriesView) -/

/-- The data-space displacement computed by `handleMouseMove`
(ComparisonModeSelector.tsx lines 746-748):
`dataDelta = (xRange.max - xRange.min) * (deltaX / (width - margins.left - margins.right))`. -/
def dataDeltaOf (r : Range) (deltaX width mleft mright : ℚ) : ℚ :=
  (r.max - r.min) * (deltaX / (width - mleft - mright))

/-- The `xRange` update performed by the pan handler `handleMouseMove`
(ComparisonModeSelector.tsx lines 743-763) while a drag is active: updates
that would push `min` below 0 or `max` above `shape - 1` are rejected as
no-ops. -/
def handleMouseMovePan (shape : ℚ) (r : Range)
    (deltaX width mleft mright : ℚ) : Range :=
  let dataDelta := dataDeltaOf r deltaX width mleft mright
  if r.min - dataDelta < 0 then r
  else if r.max - dataDelta > shape - 1 then r
  else
    let newMin := r.min - dataDelta
    let newMax := r.max - dataDelta
    if 0 ≤ newMin ∧ newMax ≤ shape - 1 then { min := newMin, max := newMax }
    else r

/-- `handleZoomIn` (ComparisonModeSelector.tsx lines 952-961): shrink the
range by a factor 1.5 centred on the selected index (view centre when no
selection), clamping `min` at 0 and `max` at `shape - 1`. -/
def handleZoomIn (shape : ℚ) (selectedIndex : Int) (r : Range) : Range :=
  let center : ℚ :=
    if selectedIndex ≠ -1 then (selectedIndex : ℚ) else (r.min + r.max) / 2
  let currentRange := r.max - r.min
  let newRange := currentRange / (3 / 2 : ℚ)
  { min := max 0 (center - newRange / 2),
    max := min (shape - 1) (center + newRange / 2) }

/-- `handleZoomOut` (ComparisonModeSelector.tsx lines 963-973): grow the
range by a factor 1.5 centred on the selected index (view centre when no
selection), clamping `min` at 0 and `max` at `shape - 1`. -/
def handleZoomOut (shape : ℚ) (selectedIndex : Int) (r : Range) : Range :=
  let center : ℚ :=
    if selectedIndex ≠ -1 then (selectedIndex : ℚ) else (r.min + r.max) / 2
  let currentRange := r.max - r.min
  let newRange := currentRange * (3 / 2 : ℚ)
  { min := max 0 (center - newRange / 2),
    max := min (shape - 1) (center + newRange / 2) }

/-- A pan or a button-driven zoom, the `xRange`-mutating interactions of the
viewer. -/
inductive ViewerOp where
  | pan (deltaX width mleft mright : ℚ)
  | zoomIn
  | zoomOut

/-- Apply one pan/zoom interaction to the current `xRange` (the selected
index is not changed by these interactions). -/
def applyOp (shape : ℚ) (selectedIndex : Int) (r : Range) :
    ViewerOp → Range
  | .pan dx w ml mr => handleMouseMovePan shape r dx w ml mr
  | .zoomIn => handleZoomIn shape selectedIndex r
  | .zoomOut => handleZoomOut shape selectedIndex r

/-- Apply a sequence of pan/zoom interactions. -/
def applyOps (shape : ℚ) (selectedIndex : Int) (r : Range)
    (ops : List ViewerOp) : Range :=
  ops.foldl (applyOp shape selectedIndex) r

/-- The viewport invariant of the spec: `0 ≤ min < max ≤ shape - 1`. -/
def rangeInvariant (shape : ℚ) (r : Range) : Prop :=
  0 ≤ r.min ∧ r.min < r.max ∧ r.max ≤ shape - 1

instance (shape : ℚ) (r : Range) : Decidable (rangeInvariant shape r) := by
  unfold rangeInvariant
  infer_instance

/-- The `xRange` set by the initialization effect
(ComparisonModeSelector.tsx lines 685-688): `{0, min(999, shape - 1)}`. -/
def initialXRange (shape : ℚ) : Range :=
  { min := 0, max := min 999 (shape - 1) }

theorem handleMouseMovePan_def (shape : ℚ) (r : Range)
    (dx w ml mr : ℚ) :
    handleMouseMovePan shape r dx w ml mr =
      (if r.min - dataDeltaOf r dx w ml mr < 0 then r
       else if r.max - dataDeltaOf r dx w ml mr > shape - 1 then r
       else if 0 ≤ r.min - dataDeltaOf r dx w ml mr ∧
           r.max - dataDeltaOf r dx w ml mr ≤ shape - 1 then
         { min := r.min - dataDeltaOf r dx w ml mr,
           max := r.max - dataDeltaOf r dx w ml mr }
       else r) := rfl

theorem pan_preserves_invariant (shape : ℚ) (r : Range)
    (dx w ml mr : ℚ) (hr : rangeInvariant shape r) :
    rangeInvariant shape (handleMouseMovePan shape r dx w ml mr) := by
  rw [handleMouseMovePan_def]
  obtain ⟨h0, h1, h2⟩ := hr
  split_ifs with hg1 hg2 hg3
  · exact ⟨h0, h1, h2⟩
  · exact ⟨h0, h1, h2⟩
  · exact ⟨hg3.1, sub_lt_sub_right h1 (dataDeltaOf r dx w ml mr), hg3.2⟩
  · exact ⟨h0, h1, h2⟩

theorem zoomIn_preserves_invariant (shape : ℚ) (si : Int) (r : Range)
    (hshape : 2 ≤ shape)
    (hsi : si = -1 ∨ (0 ≤ (si : ℚ) ∧ (si : ℚ) ≤ shape - 1))
    (hr : rangeInvariant shape r) :
    rangeInvariant shape (handleZoomIn shape si r) := by
  unfold handleZoomIn
  obtain ⟨h0, h1, h2⟩ := hr
  set center : ℚ :=
    if si ≠ -1 then (si : ℚ) else (r.min + r.max) / 2 with hcdef
  have hc : 0 ≤ center ∧ center ≤ shape - 1 := by
    rcases hsi with h | h
    · rw [hcdef, if_neg (by simp [h])]
      constructor
      · linarith
      · linarith
    · by_cases hne : si = -1
      · rw [hcdef, if_neg (by simp [hne])]
        constructor
        · linarith
        · linarith
      · rw [hcdef, if_pos hne]
        exact h
  have hsub : 0 < r.max - r.min := by linarith
  have hhalf : 0 < (r.max - r.min) / (3 / 2 : ℚ) / 2 :=
    div_pos (div_pos hsub (by norm_num)) (by norm_num)
  refine ⟨le_max_left _ _, ?_, min_le_left _ _⟩
  rw [max_lt_iff, lt_min_iff, lt_min_iff]
  refine ⟨⟨by linarith, by linarith⟩, by linarith, by linarith⟩

theorem zoomOut_preserves_invariant (shape : ℚ) (si : Int) (r : Range)
    (hshape : 2 ≤ shape)
    (hsi : si = -1 ∨ (0 ≤ (si : ℚ) ∧ (si : ℚ) ≤ shape - 1))
    (hr : rangeInvariant shape r) :
    rangeInvariant shape (handleZoomOut shape si r) := by
  unfold handleZoomOut
  obtain ⟨h0, h1, h2⟩ := hr
  set center : ℚ :=
    if si ≠ -1 then (si : ℚ) else (r.min + r.max) / 2 with hcdef
  have hc : 0 ≤ center ∧ center ≤ shape - 1 := by
    rcases hsi with h | h
    · rw [hcdef, if_neg (by simp [h])]
      constructor
      · linarith
      · linarith
    · by_cases hne : si = -1
      · rw [hcdef, if_neg (by simp [hne])]
        constructor
        · linarith
        · linarith
      · rw [hcdef, if_pos hne]
        exact h
  have hsub : 0 < r.max - r.min := by linarith
  have hhalf : 0 < (r.max - r.min) * (3 / 2 : ℚ) / 2 :=
    div_pos (mul_pos hsub (by norm_num)) (by norm_num)
  refine ⟨le_max_left _ _, ?_, min_le_left _ _⟩
  rw [max_lt_iff, lt_min_iff, lt_min_iff]
  refine ⟨⟨by linarith, by linarith⟩, by linarith, by linarith⟩

theorem applyOps_preserves_invariant (shape : ℚ) (si : Int)
    (hshape : 2 ≤ shape)
    (hsi : si = -1 ∨ (0 ≤ (si : ℚ) ∧ (si : ℚ) ≤ shape - 1)) :
    ∀ (ops : List ViewerOp) (r : Range), rangeInvariant shape r →
      rangeInvariant shape (applyOps shape si r ops) := by
  intro ops
  induction ops with
  | nil => intro r hr; exact hr
  | cons op rest ih =>
    intro r hr
    have hstep : rangeInvariant shape (applyOp shape si r op) := by
      cases op with
      | pan dx w ml mr => exact pan_preserves_invariant shape r dx w ml mr hr
      | zoomIn => exact zoomIn_preserves_invariant shape si r hshape hsi hr
      | zoomOut => exact zoomOut_preserves_invariant shape si r hshape hsi hr
    exact ih _ hstep

/-- C3: starting from an initialized viewer (no selection, `xRange =
{0, min(999, shape-1)}`), every sequence of pan and zoom operations keeps
`0 ≤ xRange.min < xRange.max ≤ shape - 1`; moreover a pan whose guard fires
(new `min` below 0 or new `max` above `shape - 1`) is a no-op, and zoom
output is clamped to `[0, shape - 1]`. -/
theorem viewer_xRange_invariant (shape : ℚ) (ops : List ViewerOp)
    (hshape : 2 ≤ shape) :
    rangeInvariant shape (applyOps shape (-1) (initialXRange shape) ops) ∧
    (∀ (r : Range) (dx w ml mr : ℚ),
      (r.min - dataDeltaOf r dx w ml mr < 0 ∨
       r.max - dataDeltaOf r dx w ml mr > shape - 1) →
      handleMouseMovePan shape r dx w ml mr = r) ∧
    (∀ (si : Int) (r : Range),
      0 ≤ (handleZoomIn shape si r).min ∧
      (handleZoomIn shape si r).max ≤ shape - 1 ∧
      0 ≤ (handleZoomOut shape si r).min ∧
      (handleZoomOut shape si r).max ≤ shape - 1) := by
  refine ⟨?_, ?_, ?_⟩
  · apply applyOps_preserves_invariant shape (-1) hshape (Or.inl rfl)
    unfold rangeInvariant initialXRange
    refine ⟨le_refl 0, ?_, ?_⟩
    · simp only
      rw [lt_min_iff]
      constructor
      · norm_num
      · linarith
    · exact min_le_right _ _
  · intro r dx w ml mr hguard
    rw [handleMouseMovePan_def]
    split_ifs with h1 h2 h3
    · rfl
    · rfl
    · exfalso
      rcases hguard with h | h
      · exact h1 h
      · exact h2 h
    · rfl
  · intro si r
    exact ⟨le_max_left _ _, min_le_left _ _, le_max_left _ _, min_le_left _ _⟩

/-- Witness for C3: with `shape = 1000`, the invariant holds after a concrete
zoom-in, pan, zoom-out sequence from the initialized viewport. -/
theorem viewer_xRange_invariant_witness :
    rangeInvariant 1000 (applyOps 1000 (-1) (initialXRange 1000)
      [ViewerOp.zoomIn, ViewerOp.pan 10 800 60 20, ViewerOp.zoomOut]) :=
  (viewer_xRange_invariant 1000
    [ViewerOp.zoomIn, ViewerOp.pan 10 800 60 20, ViewerOp.zoomOut]
    (by norm_num)).1

/-- Let-free form of `handleZoomIn`, definitionally equal to it. -/
theorem handleZoomIn_def (shape : ℚ) (si : Int) (r : Range) :
    handleZoomIn shape si r =
      { min := max 0 ((if si ≠ -1 then (si : ℚ) else (r.min + r.max) / 2) -
          (r.max - r.min) / (3 / 2 : ℚ) / 2),
        max := min (shape - 1)
          ((if si ≠ -1 then (si : ℚ) else (r.min + r.max) / 2) +
            (r.max - r.min) / (3 / 2 : ℚ) / 2) } := rfl

/-- C6 counterexample: a button zoom-in with `selectedIndex = 500` and
`xRange = {0, 999}` yields `min = 167` exactly (the width `999` is divided by
`1.5`, giving half-width `333`), which is not within `0.01` of the claimed
`166.67`. -/
theorem zoomIn_concrete_counterexample :
    (handleZoomIn 10000 500 { min := 0, max := 999 }).min = 167 ∧
    ¬(|(handleZoomIn 10000 500 { min := 0, max := 999 }).min - 16667 / 100| ≤
      1 / 100) := by
  have h : (handleZoomIn 10000 500 { min := 0, max := 999 }).min = 167 := by
    rw [handleZoomIn_def]
    simp only
    rw [if_pos (by decide)]
    rw [show ((500 : Int) : ℚ) - (999 - 0) / (3 / 2 : ℚ) / 2 = 167 by norm_num]
    exact max_eq_right (by norm_num)
  refine ⟨h, ?_⟩
  rw [h]
  rw [abs_le]
  intro hcon
  have := hcon.1
  norm_num at this
  linarith

/-- C6 (amended): a button-driven zoom-in with `selectedIndex = 500`, current
`xRange = {0, 999}` and zoom factor 1.5 produces exactly the range
`{167, 833}` (width `999 / 1.5 = 666` centred on the selected index), clamped
to `[0, shape - 1]`; no clamping occurs when `shape ≥ 834`. -/
theorem zoomIn_concrete_amended (shape : ℚ) (hshape : 834 ≤ shape) :
    handleZoomIn shape 500 { min := 0, max := 999 } =
      { min := 167, max := 833 } := by
  rw [handleZoomIn_def]
  simp only
  rw [if_pos (by decide)]
  rw [show ((500 : Int) : ℚ) - (999 - 0) / (3 / 2 : ℚ) / 2 = 167 by norm_num]
  rw [show ((500 : Int) : ℚ) + (999 - 0) / (3 / 2 : ℚ) / 2 = 833 by norm_num]
  rw [max_eq_right (by norm_num), min_eq_right (by linarith)]

/-- Witness for the amended C6 at `shape = 2000`. -/
theorem zoomIn_concrete_amended_witness :
    handleZoomIn 2000 500 { min := 0, max := 999 } =
      { min := 167, max := 833 } :=
  zoomIn_concrete_amended 2000 (by norm_num)

/-! ## Residual computation (ComparisonModeSelector.tsx, loadReconstructedData) -/

/-- The residual computation of `loadReconstructedData`
(ComparisonModeSelector.tsx lines 661-668): residuals are produced only when
the reconstructed series has the same length as the original, in which case
`residuals[i] = dataY[i] - reconstructedData[i]`; on a length mismatch no
residual output is produced (no exception is raised). -/
def computeResiduals (dataY reconstructedData : List Int) : Option (List Int) :=
  if reconstructedData.length = dataY.length then
    some ((List.range dataY.length).map
      (fun i => dataY.getD i 0 - reconstructedData.getD i 0))
  else none

/-- C7: with `a.length = b.length = n` the residual series exists, has length
`n`, and holds `a[i] - b[i]` at every `i < n`; with differing lengths no
residual series is produced. -/
theorem computeResiduals_spec (a b : List Int) (n : Nat) (hn : a.length = n) :
    (b.length = n →
      ∃ r, computeResiduals a b = some r ∧ r.length = n ∧
        ∀ i, i < n → r.getD i 0 = a.getD i 0 - b.getD i 0) ∧
    (b.length ≠ n → computeResiduals a b = none) := by
  constructor
  · intro hb
    refine ⟨(List.range a.length).map (fun i => a.getD i 0 - b.getD i 0),
      ?_, ?_, ?_⟩
    · unfold computeResiduals
      rw [if_pos (by omega)]
    · simp [hn]
    · intro i hi
      exact TimeseriesClient.getD_map_range
        (fun i => a.getD i 0 - b.getD i 0) a.length i (by omega)
  · intro hb
    unfold computeResiduals
    rw [if_neg (by omega)]

/-- Witness for C7: equal-length input produces the pointwise differences;
mismatched lengths produce no output. -/
theorem computeResiduals_spec_witness :
    computeResiduals [5, 2, 9] [1, 4, 4] = some [4, -2, 5] ∧
    computeResiduals [5, 2, 9] [1, 4] = none :=
  ⟨by decide,
    (computeResiduals_spec [5, 2, 9] [1, 4] 3 (by decide)).2 (by decide)⟩

/-! ## Chunk fetch protocol (TimeseriesDataClient.ts, cache / inProgressFetches) -/

/-- The mutable fetch state of one `TimeseriesDataClient` instance: `cache`
maps chunk indices to fetched chunk data (as an association list keyed by
chunk index), `inProgressFetches` holds the chunk indices with a pending
network fetch, and `issuedRequests` logs every byte-range request issued, in
order. -/
structure ClientNetState where
  cache : List (Nat × List Int)
  inProgressFetches : List Nat
  issuedRequests : List Nat
deriving DecidableEq

/-- The fetch state of a freshly created client: nothing cached, nothing in
flight. -/
def initialNetState : ClientNetState :=
  { cache := [], inProgressFetches := [], issuedRequests := [] }

/-- The synchronous part of `fetchChunk` (TimeseriesDataClient.ts lines
96-146): return the cached chunk if present; otherwise share the pending
fetch if one is in flight; otherwise issue a byte-range request and record
it as in flight.  In the single-threaded JavaScript event loop this
check-and-register sequence runs atomically (no `await` separates it). -/
def fetchChunkStep (s : ClientNetState) (chunkIndex : Nat) : ClientNetState :=
  if (s.cache.lookup chunkIndex).isSome then s
  else if chunkIndex ∈ s.inProgressFetches then s
  else
    { s with inProgressFetches := s.inProgressFetches ++ [chunkIndex],
             issuedRequests := s.issuedRequests ++ [chunkIndex] }

/-- Settling of the pending network fetch for `chunkIndex`
(TimeseriesDataClient.ts lines 122-140): on success the decoded data is
written to the cache (`this.cache[chunkIndex] = data`; the write always hits
a fresh key because a fetch is only started for uncached chunks, so an
append models it exactly); in both outcomes the `finally` block removes the
in-flight marker.  The client `c` supplies the decoded chunk contents. -/
def completeStep (c : TimeseriesClient) (s : ClientNetState)
    (chunkIndex : Nat) (ok : Bool) : ClientNetState :=
  if chunkIndex ∈ s.inProgressFetches then
    { s with
        cache :=
          if ok then s.cache ++ [(chunkIndex, c.fetchChunk chunkIndex)]
          else s.cache,
        inProgressFetches := s.inProgressFetches.erase chunkIndex }
  else s

/-- An observable event of the fetch protocol: a `fetchChunk` call, or the
settling of a pending network fetch. -/
inductive FetchEvent where
  | request (chunkIndex : Nat)
  | complete (chunkIndex : Nat) (ok : Bool)

/-- One protocol event. -/
def fetchStep (c : TimeseriesClient) (s : ClientNetState) :
    FetchEvent → ClientNetState
  | .request i => fetchChunkStep s i
  | .complete i ok => completeStep c s i ok

theorem fetchStep_request (c : TimeseriesClient) (s : ClientNetState)
    (i : Nat) : fetchStep c s (.request i) = fetchChunkStep s i := rfl

theorem fetchStep_complete (c : TimeseriesClient) (s : ClientNetState)
    (i : Nat) (ok : Bool) :
    fetchStep c s (.complete i ok) = completeStep c s i ok := rfl

/-- A sequence of protocol events, in event-loop order. -/
def runFetch (c : TimeseriesClient) (s : ClientNetState)
    (evs : List FetchEvent) : ClientNetState :=
  evs.foldl (fetchStep c) s

/-- Well-formedness of the fetch state: no duplicate in-flight markers, no
duplicate cache keys, and no chunk simultaneously cached and in flight. -/
def ClientNetWF (s : ClientNetState) : Prop :=
  s.inProgressFetches.Nodup ∧
  (s.cache.map Prod.fst).Nodup ∧
  ∀ i ∈ s.inProgressFetches, s.cache.lookup i = none

instance (s : ClientNetState) : Decidable (ClientNetWF s) := by
  unfold ClientNetWF
  infer_instance

theorem lookup_append_some {l1 l2 : List (Nat × List Int)} {i : Nat}
    {d : List Int} (h : l1.lookup i = some d) :
    (l1 ++ l2).lookup i = some d := by
  induction l1 with
  | nil => simp at h
  | cons p rest ih =>
    obtain ⟨k, v⟩ := p
    rw [List.cons_append]
    cases hik : (i == k)
    · simp only [List.lookup_cons, hik] at h ⊢
      exact ih h
    · simp only [List.lookup_cons, hik] at h ⊢
      exact h

theorem lookup_append_none {l1 l2 : List (Nat × List Int)} {i : Nat}
    (h : l1.lookup i = none) :
    (l1 ++ l2).lookup i = l2.lookup i := by
  induction l1 with
  | nil => simp
  | cons p rest ih =>
    obtain ⟨k, v⟩ := p
    rw [List.cons_append]
    cases hik : (i == k)
    · simp only [List.lookup_cons, hik] at h ⊢
      exact ih h
    · simp only [List.lookup_cons, hik] at h
      cases h

theorem lookup_none_of_not_mem_keys {l : List (Nat × List Int)} {i : Nat}
    (h : i ∉ l.map Prod.fst) : l.lookup i = none := by
  induction l with
  | nil => rfl
  | cons p rest ih =>
    obtain ⟨k, v⟩ := p
    simp only [List.map_cons, List.mem_cons] at h
    push_neg at h
    have hik : (i == k) = false := by simpa using h.1
    simp only [List.lookup_cons, hik]
    exact ih h.2

theorem not_mem_keys_of_lookup_none {l : List (Nat × List Int)} {i : Nat}
    (h : l.lookup i = none) : i ∉ l.map Prod.fst := by
  induction l with
  | nil => simp
  | cons p rest ih =>
    obtain ⟨k, v⟩ := p
    cases hik : (i == k)
    · simp only [List.lookup_cons, hik] at h
      simp only [List.map_cons, List.mem_cons]
      push_neg
      exact ⟨by simpa using hik, ih h⟩
    · simp only [List.lookup_cons, hik] at h
      cases h

theorem fetchChunkStep_wf {s : ClientNetState} (hwf : ClientNetWF s)
    (i : Nat) : ClientNetWF (fetchChunkStep s i) := by
  obtain ⟨h1, h2, h3⟩ := hwf
  unfold fetchChunkStep
  split_ifs with hc hip
  · exact ⟨h1, h2, h3⟩
  · exact ⟨h1, h2, h3⟩
  · refine ⟨?_, h2, ?_⟩
    · rw [List.nodup_append]
      exact ⟨h1, List.nodup_singleton i, by simpa using hip⟩
    · intro j hj
      rw [List.mem_append] at hj
      rcases hj with hj | hj
      · exact h3 j hj
      · simp only [List.mem_singleton] at hj
        subst hj
        exact Option.not_isSome_iff_eq_none.mp hc

theorem completeStep_wf (c : TimeseriesClient) {s : ClientNetState}
    (hwf : ClientNetWF s) (i : Nat) (ok : Bool) :
    ClientNetWF (completeStep c s i ok) := by
  obtain ⟨h1, h2, h3⟩ := hwf
  unfold completeStep
  by_cases hip : i ∈ s.inProgressFetches
  · rw [if_pos hip]
    have hnone : s.cache.lookup i = none := h3 i hip
    have hkeys : i ∉ s.cache.map Prod.fst := not_mem_keys_of_lookup_none hnone
    cases ok with
    | false =>
      simp only [Bool.false_eq_true, if_false]
      refine ⟨List.Nodup.erase i h1, h2, ?_⟩
      intro j hj
      exact h3 j (List.mem_of_mem_erase hj)
    | true =>
      simp only [if_true]
      refine ⟨List.Nodup.erase i h1, ?_, ?_⟩
      · rw [List.map_append, List.nodup_append]
        refine ⟨h2, by simp, ?_⟩
        intro a ha hb
        simp only [List.map_cons, List.map_nil, List.mem_singleton] at hb
        subst hb
        exact hkeys ha
      · intro j hj
        have hj2 : j ∈ s.inProgressFetches := List.mem_of_mem_erase hj
        have hjne : j ≠ i := by
          intro heq
          subst heq
          exact ((List.Nodup.mem_erase_iff h1).mp hj).1 rfl
        have hlj : s.cache.lookup j = none := h3 j hj2
        rw [lookup_append_none hlj]
        have hjk : (j == i) = false := by simpa using hjne
        simp [List.lookup_cons, hjk]
  · rw [if_neg hip]
    exact ⟨h1, h2, h3⟩

theorem fetchStep_wf (c : TimeseriesClient) {s : ClientNetState}
    (hwf : ClientNetWF s) (e : FetchEvent) : ClientNetWF (fetchStep c s e) := by
  cases e with
  | request i => exact fetchChunkStep_wf hwf i
  | complete i ok => exact completeStep_wf c hwf i ok

theorem runFetch_wf (c : TimeseriesClient) {s : ClientNetState}
    (hwf : ClientNetWF s) (evs : List FetchEvent) :
    ClientNetWF (runFetch c s evs) := by
  induction evs generalizing s with
  | nil => exact hwf
  | cons e rest ih => exact ih (fetchStep_wf c hwf e)

theorem fetchStep_cache_persist (c : TimeseriesClient) {s : ClientNetState}
    {i : Nat} {d : List Int}
    (h : s.cache.lookup i = some d) (e : FetchEvent) :
    (fetchStep c s e).cache.lookup i = some d := by
  cases e with
  | request j =>
    rw [fetchStep_request]
    unfold fetchChunkStep
    split_ifs with hc hip
    · exact h
    · exact h
    · exact h
  | complete j ok =>
    rw [fetchStep_complete]
    unfold completeStep
    by_cases hip : j ∈ s.inProgressFetches
    · rw [if_pos hip]
      cases ok with
      | false => simpa using h
      | true =>
        simp only [if_true]
        exact lookup_append_some h
    · rw [if_neg hip]
      exact h

theorem runFetch_cache_persist (c : TimeseriesClient) {s : ClientNetState}
    (hwf : ClientNetWF s) {i : Nat} {d : List Int}
    (h : s.cache.lookup i = some d) (evs : List FetchEvent) :
    (runFetch c s evs).cache.lookup i = some d := by
  induction evs generalizing s with
  | nil => exact h
  | cons e rest ih =>
    exact ih (fetchStep_wf c hwf e) (fetchStep_cache_persist c h e)

theorem runFetch_nil (c : TimeseriesClient) (s : ClientNetState) :
    runFetch c s [] = s := rfl

theorem runFetch_cons (c : TimeseriesClient) (s : ClientNetState)
    (e : FetchEvent) (evs : List FetchEvent) :
    runFetch c s (e :: evs) = runFetch c (fetchStep c s e) evs := rfl

theorem runFetch_requests_issued_bound (c : TimeseriesClient) :
    ∀ (idxs : List Nat) (s : ClientNetState) (i : Nat), ClientNetWF s →
      (runFetch c s (idxs.map FetchEvent.request)).issuedRequests.count i ≤
        s.issuedRequests.count i +
          (if (s.cache.lookup i).isSome ∨ i ∈ s.inProgressFetches then 0
           else 1) := by
  intro idxs
  induction idxs with
  | nil =>
    intro s i hwf
    rw [List.map_nil, runFetch_nil]
    omega
  | cons a rest ih =>
    intro s i hwf
    rw [List.map_cons, runFetch_cons, fetchStep_request]
    by_cases hc : (s.cache.lookup a).isSome
    · rw [show fetchChunkStep s a = s by unfold fetchChunkStep; rw [if_pos hc]]
      exact ih s i hwf
    · by_cases hip : a ∈ s.inProgressFetches
      · rw [show fetchChunkStep s a = s by
          unfold fetchChunkStep; rw [if_neg hc, if_pos hip]]
        exact ih s i hwf
      · have hstep : fetchChunkStep s a =
            { s with inProgressFetches := s.inProgressFetches ++ [a],
                     issuedRequests := s.issuedRequests ++ [a] } := by
          unfold fetchChunkStep
          rw [if_neg hc, if_neg hip]
        rw [hstep]
        have hwf2 : ClientNetWF
            { s with inProgressFetches := s.inProgressFetches ++ [a],
                     issuedRequests := s.issuedRequests ++ [a] } := by
          have := fetchChunkStep_wf hwf a
          rwa [hstep] at this
        have hbound := ih _ i hwf2
        dsimp only at hbound
        rw [List.count_append] at hbound
        by_cases hia : i = a
        · subst hia
          rw [if_pos (Or.inr (by simp : i ∈ s.inProgressFetches ++ [i]))]
            at hbound
          rw [if_neg (by tauto)]
          have hone : List.count i [i] = 1 := by simp
          omega
        · have hz : List.count i [a] = 0 := by simp [hia]
          have hcond2 : ((List.lookup i s.cache).isSome = true ∨
              i ∈ s.inProgressFetches ++ [a]) ↔
              ((List.lookup i s.cache).isSome = true ∨
                i ∈ s.inProgressFetches) := by
            simp [hia]
          by_cases hcond : (List.lookup i s.cache).isSome = true ∨
              i ∈ s.inProgressFetches
          · rw [if_pos (hcond2.mpr hcond)] at hbound
            rw [if_pos hcond]
            omega
          · rw [if_neg (fun hx => hcond (hcond2.mp hx))] at hbound
            rw [if_neg hcond]
            omega

theorem runFetch_cached_noop (c : TimeseriesClient) :
    ∀ (idxs : List Nat) (s : ClientNetState),
      (∀ i ∈ idxs, (s.cache.lookup i).isSome) →
      runFetch c s (idxs.map FetchEvent.request) = s := by
  intro idxs
  induction idxs with
  | nil => intro s _; rfl
  | cons a rest ih =>
    intro s h
    rw [List.map_cons, runFetch_cons, fetchStep_request]
    rw [show fetchChunkStep s a = s by
      unfold fetchChunkStep; rw [if_pos (h a (by simp))]]
    exact ih s (fun i hi => h i (by simp [hi]))

/-- C2: within one client instance at most one network request per chunk
index is outstanding at any time (the in-flight list never holds a duplicate
chunk index, over any event sequence); a `fetchChunk` call for a chunk
already in flight leaves the state unchanged — the caller shares the pending
fetch instead of issuing a duplicate request; and any interleaving of
concurrently issued `fetchChunk` calls, such as two overlapping `fetchRange`
calls, issues at most one new network request per chunk index (none if it is
already cached or in flight). -/
theorem fetch_deduplication (c : TimeseriesClient) :
    (∀ (s : ClientNetState) (evs : List FetchEvent), ClientNetWF s →
      (runFetch c s evs).inProgressFetches.Nodup) ∧
    (∀ (s : ClientNetState) (i : Nat), i ∈ s.inProgressFetches →
      fetchChunkStep s i = s) ∧
    (∀ (idxs : List Nat) (s : ClientNetState) (i : Nat), ClientNetWF s →
      (runFetch c s (idxs.map FetchEvent.request)).issuedRequests.count i ≤
        s.issuedRequests.count i +
          (if (s.cache.lookup i).isSome ∨ i ∈ s.inProgressFetches then 0
           else 1)) := by
  refine ⟨?_, ?_, runFetch_requests_issued_bound c⟩
  · intro s evs hwf
    exact (runFetch_wf c hwf evs).1
  · intro s i hip
    unfold fetchChunkStep
    by_cases hc : (s.cache.lookup i).isSome
    · rw [if_pos hc]
    · rw [if_neg hc, if_pos hip]

/-- Witness for C2 on concrete event sequences over `sampleClient`. -/
theorem fetch_deduplication_witness :
    (runFetch sampleClient initialNetState
      [FetchEvent.request 0, FetchEvent.complete 0 true,
       FetchEvent.request 1]).inProgressFetches.Nodup ∧
    fetchChunkStep
      { cache := [], inProgressFetches := [5], issuedRequests := [5] } 5 =
      { cache := [], inProgressFetches := [5], issuedRequests := [5] } ∧
    (runFetch sampleClient initialNetState
        (([0, 1, 0, 1] : List Nat).map FetchEvent.request)).issuedRequests.count
        0 ≤
      initialNetState.issuedRequests.count 0 +
        (if (initialNetState.cache.lookup 0).isSome ∨
            0 ∈ initialNetState.inProgressFetches then 0 else 1) := by
  have h := fetch_deduplication sampleClient
  exact ⟨h.1 initialNetState _ (by decide), h.2.1 _ 5 (by decide),
    h.2.2 [0, 1, 0, 1] initialNetState 0 (by decide)⟩

/-- C5: a repeated `fetchRange` whose chunks are all cached changes nothing
and issues no network request (every chunk is served from the cache); a
cache entry, once written, is never replaced or mutated by any later event
sequence; a successful completion does write its chunk to the cache; and in
every reachable state each chunk index has at most one cache entry. -/
theorem cache_hit_no_refetch (c : TimeseriesClient) :
    (∀ (s : ClientNetState) (idxs : List Nat),
      (∀ i ∈ idxs, (s.cache.lookup i).isSome) →
      runFetch c s (idxs.map FetchEvent.request) = s) ∧
    (∀ (s : ClientNetState) (evs : List FetchEvent) (i : Nat) (d : List Int),
      ClientNetWF s → s.cache.lookup i = some d →
      (runFetch c s evs).cache.lookup i = some d) ∧
    (∀ (s : ClientNetState) (i : Nat), ClientNetWF s →
      i ∈ s.inProgressFetches →
      (completeStep c s i true).cache.lookup i = some (c.fetchChunk i)) ∧
    (∀ (evs : List FetchEvent) (i : Nat),
      ((runFetch c initialNetState evs).cache.map Prod.fst).count i ≤ 1) := by
  refine ⟨?_, ?_, ?_, ?_⟩
  · intro s idxs h
    exact runFetch_cached_noop c idxs s h
  · intro s evs i d hwf h
    exact runFetch_cache_persist c hwf h evs
  · intro s i hwf hip
    unfold completeStep
    rw [if_pos hip]
    simp only [if_true]
    rw [lookup_append_none (hwf.2.2 i hip)]
    simp [List.lookup_cons]
  · intro evs i
    have hwf : ClientNetWF (runFetch c initialNetState evs) :=
      runFetch_wf c (by decide) evs
    exact (List.nodup_iff_count_le_one.mp hwf.2.1) i

/-- Witness for C5: re-requesting a cached chunk is a no-op, and after a
request/success/request sequence chunk 0 has a single cache entry. -/
theorem cache_hit_no_refetch_witness :
    runFetch sampleClient
      { cache := [(0, sampleClient.fetchChunk 0)], inProgressFetches := [],
        issuedRequests := [0] }
      (([0, 0] : List Nat).map FetchEvent.request) =
      { cache := [(0, sampleClient.fetchChunk 0)], inProgressFetches := [],
        issuedRequests := [0] } ∧
    ((runFetch sampleClient initialNetState
      [FetchEvent.request 0, FetchEvent.complete 0 true,
       FetchEvent.request 0]).cache.map Prod.fst).count 0 ≤ 1 := by
  have h := cache_hit_no_refetch sampleClient
  exact ⟨h.1 _ [0, 0] (by decide), h.2.2.2 _ 0⟩

/-- Resolution of all chunk fetches of one `fetchRange` call, as performed
by `await Promise.all(chunkIndices.map(idx => fetchChunk(idx)))`
(TimeseriesDataClient.ts lines 158-160): the first rejection, in chunk-index
order, rejects the whole call. -/
def collectChunks (chunkResult : Nat → Except String (List Int)) :
    List Nat → Except String (List (List Int))
  | [] => .ok []
  | i :: rest =>
    match chunkResult i, collectChunks chunkResult rest with
    | .error msg, _ => .error msg
    | .ok _, .error msg => .error msg
    | .ok d, .ok ds => .ok (d :: ds)

namespace TimeseriesClient

/-- `fetchRange` with explicit per-chunk fetch outcomes: a chunk fetch
rejection propagates to the caller of `fetchRange`; on success the chunks
are stitched exactly as in `fetchRange`. -/
def fetchRangeE (c : TimeseriesClient)
    (chunkResult : Nat → Except String (List Int))
    (start stop channel : Nat) : Except String (List Int) :=
  match collectChunks chunkResult (c.getChunkIndices start stop) with
  | .error msg => .error msg
  | .ok chunks =>
      .ok (fetchRangeCore c start stop channel
        ((c.getChunkIndices start stop).zip chunks))

end TimeseriesClient

theorem collectChunks_error_of_mem {idxs : List Nat}
    {chunkResult : Nat → Except String (List Int)} {i : Nat} {msg : String}
    (hmem : i ∈ idxs) (herr : chunkResult i = .error msg) :
    ∃ msg2, collectChunks chunkResult idxs = Except.error msg2 := by
  induction idxs with
  | nil => cases hmem
  | cons a rest ih =>
    rcases List.mem_cons.mp hmem with rfl | hmem2
    · exact ⟨msg, by simp [collectChunks, herr]⟩
    · obtain ⟨m2, hm2⟩ := ih hmem2
      cases hfa : chunkResult a with
      | error m => exact ⟨m, by simp [collectChunks, hfa]⟩
      | ok v => exact ⟨m2, by simp [collectChunks, hfa, hm2]⟩

theorem zip_self_map (l : List Nat) (g : Nat → List Int) :
    l.zip (l.map g) = l.map (fun i => (i, g i)) := by
  induction l with
  | nil => rfl
  | cons a rest ih => simp [ih]

theorem collectChunks_ok (g : Nat → List Int) (idxs : List Nat) :
    collectChunks (fun i => Except.ok (g i)) idxs =
      Except.ok (idxs.map g) := by
  induction idxs with
  | nil => rfl
  | cons a rest ih => simp [collectChunks, ih]

/-- When every chunk fetch succeeds, `fetchRangeE` returns exactly
`fetchRange`. -/
theorem fetchRangeE_all_ok (c : TimeseriesClient) (start stop channel : Nat) :
    c.fetchRangeE (fun i => Except.ok (c.fetchChunk i)) start stop channel =
      Except.ok (c.fetchRange start stop channel) := by
  unfold TimeseriesClient.fetchRangeE
  rw [collectChunks_ok]
  show Except.ok (c.fetchRangeCore start stop channel
    ((c.getChunkIndices start stop).zip
      ((c.getChunkIndices start stop).map c.fetchChunk))) =
    Except.ok (c.fetchRange start stop channel)
  rw [zip_self_map]
  rfl

/-- C8: the `finally` cleanup removes the in-flight marker on completion
regardless of success or failure; a failed chunk is not added to the cache,
and a subsequent `fetchChunk` for it issues a fresh network request (retry);
and a chunk fetch rejection propagates to the caller of `fetchRange`. -/
theorem fetch_failure_retry (c : TimeseriesClient) :
    (∀ (s : ClientNetState) (i : Nat) (ok : Bool), ClientNetWF s →
      i ∉ (completeStep c s i ok).inProgressFetches) ∧
    (∀ (s : ClientNetState) (i : Nat), ClientNetWF s →
      i ∈ s.inProgressFetches →
      (completeStep c s i false).cache.lookup i = none ∧
      (fetchChunkStep (completeStep c s i false) i).issuedRequests =
        (completeStep c s i false).issuedRequests ++ [i]) ∧
    (∀ (chunkResult : Nat → Except String (List Int))
      (start stop channel i : Nat) (msg : String),
      i ∈ c.getChunkIndices start stop → chunkResult i = .error msg →
      ∃ msg2, c.fetchRangeE chunkResult start stop channel =
        Except.error msg2) := by
  refine ⟨?_, ?_, ?_⟩
  · intro s i ok hwf
    unfold completeStep
    by_cases hip : i ∈ s.inProgressFetches
    · rw [if_pos hip]
      intro hmem
      exact ((List.Nodup.mem_erase_iff hwf.1).mp hmem).1 rfl
    · rw [if_neg hip]
      exact hip
  · intro s i hwf hip
    have hnone : s.cache.lookup i = none := hwf.2.2 i hip
    have hcs : completeStep c s i false =
        { s with inProgressFetches := s.inProgressFetches.erase i } := by
      unfold completeStep
      rw [if_pos hip]
      simp
    rw [hcs]
    refine ⟨hnone, ?_⟩
    unfold fetchChunkStep
    rw [if_neg (by simp [hnone]), if_neg (by
      intro hmem
      exact ((List.Nodup.mem_erase_iff hwf.1).mp hmem).1 rfl)]
  · intro chunkResult start stop channel i msg hmem herr
    obtain ⟨m2, hm2⟩ := collectChunks_error_of_mem hmem herr
    exact ⟨m2, by simp [TimeseriesClient.fetchRangeE, hm2]⟩

/-- Witness for C8: completing chunk 0 with a failure clears its in-flight
marker and leaves it uncached, and a `fetchRange` whose first chunk fetch
fails rejects. -/
theorem fetch_failure_retry_witness :
    0 ∉ (completeStep sampleClient
      { cache := [], inProgressFetches := [0], issuedRequests := [0] }
      0 false).inProgressFetches ∧
    (completeStep sampleClient
      { cache := [], inProgressFetches := [0], issuedRequests := [0] }
      0 false).cache.lookup 0 = none ∧
    sampleClient.fetchRangeE
      (fun i => if i = 0 then Except.error "fail"
                else Except.ok (sampleClient.fetchChunk i)) 0 20 0 =
      Except.error "fail" := by
  have h := fetch_failure_retry sampleClient
  exact ⟨h.1 _ 0 false (by decide), (h.2.1 _ 0 (by decide) (by decide)).1,
    by rfl⟩

/-! ## Render worker throttling (LossyAlgorithmSelector.tsx, TimeseriesViewWorker) -/

/-- The worker's throttle state (LossyAlgorithmSelector.tsx lines 345-346)
plus its observable output: `renderStack` holds the queued render callbacks,
identified by request id; `lastRenderTime` is the `Date.now()` of the last
executed render; `pendingTimeouts` holds the wakeup times of scheduled
`setTimeout(checkRender, 150)` calls; `executed` lists the ids whose render
ran — each executed callback paints and posts exactly one `render_complete`
(lines 317-341). -/
structure WorkerState where
  renderStack : List Nat
  lastRenderTime : Nat
  pendingTimeouts : List Nat
  executed : List Nat
deriving DecidableEq

/-- `checkRender` (LossyAlgorithmSelector.tsx lines 350-360) at time `now`:
nothing to do on an empty stack; if more than 100ms have elapsed since the
last render, run the most recently queued callback and clear the stack;
otherwise schedule another check 150ms out. -/
def checkRender (now : Nat) (s : WorkerState) : WorkerState :=
  if h : s.renderStack = [] then s
  else if now - s.lastRenderTime > 100 then
    { s with lastRenderTime := now,
             renderStack := [],
             executed := s.executed ++ [s.renderStack.getLast h] }
  else { s with pendingTimeouts := s.pendingTimeouts ++ [now + 150] }

/-- An event the worker reacts to: arrival of a `render` message
(`self.onmessage` pushing onto the stack and running `checkRender`,
lines 317-318 and 348-361), or the firing of one scheduled
`setTimeout(checkRender, 150)`. -/
inductive WorkerEvent where
  | renderMessage (id : Nat)
  | timeoutFire
deriving DecidableEq

/-- One timestamped worker event. -/
def workerStep (s : WorkerState) : Nat × WorkerEvent → WorkerState
  | (now, .renderMessage id) =>
      checkRender now { s with renderStack := s.renderStack ++ [id] }
  | (now, .timeoutFire) =>
      match s.pendingTimeouts with
      | [] => s
      | _ :: rest => checkRender now { s with pendingTimeouts := rest }

/-- A chronological sequence of timestamped worker events. -/
def runWorker (s : WorkerState) (evs : List (Nat × WorkerEvent)) :
    WorkerState :=
  evs.foldl workerStep s

theorem runWorker_cons (s : WorkerState) (e : Nat × WorkerEvent)
    (evs : List (Nat × WorkerEvent)) :
    runWorker s (e :: evs) = runWorker (workerStep s e) evs := rfl

theorem workerStep_timeoutFire (s : WorkerState) (now : Nat) :
    workerStep s (now, .timeoutFire) =
      match s.pendingTimeouts with
      | [] => s
      | _ :: rest => checkRender now { s with pendingTimeouts := rest } := rfl

/-- Arrivals inside the throttle interval only queue work and schedule
checks; nothing is executed. -/
theorem runWorker_arrivals :
    ∀ (ids ts : List Nat) (s : WorkerState), ids.length = ts.length →
      (∀ t ∈ ts, t ≤ s.lastRenderTime + 100) →
      runWorker s (ts.zip (ids.map WorkerEvent.renderMessage)) =
        { s with renderStack := s.renderStack ++ ids,
                 pendingTimeouts :=
                   s.pendingTimeouts ++ ts.map (fun t => t + 150) } := by
  intro ids
  induction ids with
  | nil =>
    intro ts s hlen hts
    obtain rfl : ts = [] := List.length_eq_zero.mp (by simp at hlen; omega)
    simp [runWorker]
  | cons id rest ih =>
    intro ts s hlen hts
    cases ts with
    | nil => simp at hlen
    | cons t ts2 =>
      rw [List.map_cons, List.zip_cons_cons, runWorker_cons]
      have ht : t ≤ s.lastRenderTime + 100 := hts t (by simp)
      have hstep : workerStep s (t, WorkerEvent.renderMessage id) =
          { s with renderStack := s.renderStack ++ [id],
                   pendingTimeouts := s.pendingTimeouts ++ [t + 150] } := by
        show checkRender t { s with renderStack := s.renderStack ++ [id] } = _
        unfold checkRender
        rw [dif_neg (by simp)]
        rw [if_neg (show ¬(t - s.lastRenderTime > 100) by omega)]
      rw [hstep]
      rw [ih ts2 _ (by simpa using hlen) (fun u hu => by
        have := hts u (by simp [hu])
        simpa using this)]
      simp

/-- Once the stack is empty, further timeout firings execute nothing. -/
theorem runWorker_idle_timeouts :
    ∀ (tl : List (Nat × WorkerEvent)) (s : WorkerState),
      s.renderStack = [] → (∀ e ∈ tl, e.2 = WorkerEvent.timeoutFire) →
      (runWorker s tl).executed = s.executed ∧
      (runWorker s tl).renderStack = [] := by
  intro tl
  induction tl with
  | nil => intro s hs _; exact ⟨rfl, hs⟩
  | cons e rest ih =>
    intro s hs hall
    obtain ⟨tm, ev⟩ := e
    obtain rfl : ev = WorkerEvent.timeoutFire := hall (tm, ev) (by simp)
    rw [runWorker_cons]
    have hstep : (workerStep s (tm, WorkerEvent.timeoutFire)).executed =
        s.executed ∧
        (workerStep s (tm, WorkerEvent.timeoutFire)).renderStack = [] := by
      rw [workerStep_timeoutFire]
      cases hp : s.pendingTimeouts with
      | nil => exact ⟨rfl, hs⟩
      | cons p ps =>
        simp only
        unfold checkRender
        rw [dif_pos (show ({ s with pendingTimeouts := ps } :
          WorkerState).renderStack = [] from hs)]
        exact ⟨rfl, hs⟩
    obtain ⟨h1, h2⟩ := hstep
    obtain ⟨h3, h4⟩ := ih _ h2 (fun e2 he2 => hall e2 (by simp [he2]))
    exact ⟨h3.trans h1, h4⟩

/-- C4: for a batch of `N ≥ 1` render requests all delivered within one
throttle interval (every arrival at most 100ms after the last render, in
chronological order), the worker executes exactly the render of the last
request of the batch — one `render_complete` for the whole batch — and the
superseded earlier requests are dropped, executing nothing. -/
theorem throttle_executes_last_only (ids ts : List Nat) (T0 : Nat)
    (hlen : ids.length = ts.length) (hne : ids ≠ [])
    (hts : ∀ t ∈ ts, T0 ≤ t ∧ t ≤ T0 + 100)
    (hchain : ts.Chain' (fun a b => a ≤ b)) :
    (runWorker
      { renderStack := [], lastRenderTime := T0, pendingTimeouts := [],
        executed := [] }
      (ts.zip (ids.map WorkerEvent.renderMessage) ++
        ts.map (fun t => (t + 150, WorkerEvent.timeoutFire)))).executed =
      [ids.getLast hne] ∧
    (runWorker
      { renderStack := [], lastRenderTime := T0, pendingTimeouts := [],
        executed := [] }
      (ts.zip (ids.map WorkerEvent.renderMessage) ++
        ts.map (fun t => (t + 150, WorkerEvent.timeoutFire)))).renderStack =
      [] := by
  rw [show runWorker
      { renderStack := [], lastRenderTime := T0, pendingTimeouts := [],
        executed := [] }
      (ts.zip (ids.map WorkerEvent.renderMessage) ++
        ts.map (fun t => (t + 150, WorkerEvent.timeoutFire))) =
      runWorker (runWorker
        { renderStack := [], lastRenderTime := T0, pendingTimeouts := [],
          executed := [] }
        (ts.zip (ids.map WorkerEvent.renderMessage)))
        (ts.map (fun t => (t + 150, WorkerEvent.timeoutFire)))
    from List.foldl_append _ _ _ _]
  rw [runWorker_arrivals ids ts _ hlen (fun t htm => (hts t htm).2)]
  cases ts with
  | nil =>
    obtain rfl : ids = [] := by simpa using hlen
    exact absurd rfl hne
  | cons t0 ts2 =>
    have ht0 : T0 ≤ t0 := (hts t0 (by simp)).1
    dsimp only
    simp only [List.nil_append, List.map_cons]
    rw [runWorker_cons]
    have hstep : workerStep
        { renderStack := ids, lastRenderTime := T0,
          pendingTimeouts := (t0 + 150) :: List.map (fun t => t + 150) ts2,
          executed := [] } (t0 + 150, WorkerEvent.timeoutFire) =
        { renderStack := [], lastRenderTime := t0 + 150,
          pendingTimeouts := List.map (fun t => t + 150) ts2,
          executed := [ids.getLast hne] } := by
      have hd : workerStep
          { renderStack := ids, lastRenderTime := T0,
            pendingTimeouts := (t0 + 150) :: List.map (fun t => t + 150) ts2,
            executed := [] } (t0 + 150, WorkerEvent.timeoutFire) =
          checkRender (t0 + 150)
            { renderStack := ids, lastRenderTime := T0,
              pendingTimeouts := List.map (fun t => t + 150) ts2,
              executed := [] } := rfl
      rw [hd]
      unfold checkRender
      rw [dif_neg hne]
      rw [if_pos (show t0 + 150 - T0 > 100 by omega)]
      simp
    rw [hstep]
    have hidle := runWorker_idle_timeouts
      (ts2.map (fun t => (t + 150, WorkerEvent.timeoutFire)))
      { renderStack := [], lastRenderTime := t0 + 150,
        pendingTimeouts := List.map (fun t => t + 150) ts2,
        executed := [ids.getLast hne] }
      rfl (by
        intro e he
        rw [List.mem_map] at he
        obtain ⟨u, _, rfl⟩ := he
        rfl)
    exact ⟨hidle.1.trans rfl, hidle.2⟩

/-- Witness for C4: three render requests at 1010, 1020, 1030ms after a last
render at 1000ms execute only the last request's render. -/
theorem throttle_executes_last_only_witness :
    (runWorker
      { renderStack := [], lastRenderTime := 1000, pendingTimeouts := [],
        executed := [] }
      (([1010, 1020, 1030] : List Nat).zip
        (([7, 8, 9] : List Nat).map WorkerEvent.renderMessage) ++
        ([1010, 1020, 1030] : List Nat).map
          (fun t => (t + 150, WorkerEvent.timeoutFire)))).executed = [9] := by
  have h := throttle_executes_last_only [7, 8, 9] [1010, 1020, 1030] 1000
    (by decide) (by decide) (by decide) (by norm_num [List.chain'_cons])
  rw [h.1]
  rfl

end EphysCompression
